import Mathlib

/-!
Verification of the layerable-automata engine (src/index.ts).

Shallow embedding notes.  The engine is single-threaded JavaScript with
explicit mutable state on the `Automata` object; we model it by threading an
explicit `Auto` record through every operation.  Runtime failures (property
access on `undefined`, a handler throwing) are modelled with an `Err` value;
a failing call still returns the state as mutated so far, matching a thrown
exception that propagates past already-performed assignments.  Calls the
engine makes into caller-supplied code (state handlers, `onTransition`
observers, the `onUpdateContexts` hook) are recorded in an effect trace.
Cargo objects are opaque to the engine, so they are modelled by allocation
identifiers: every `new CargoClass()` yields a fresh `Nat`.
-/

namespace LayerableAutomata

/-- One activation of a system on the stack (interface `Context` in the
source): the owning system's name, the current state name, and the cargo's
allocation identifier. -/
structure Context where
  system : String
  currentState : String
  cargo : Nat
  deriving DecidableEq, Repr

/-- The fields of an event's `data` payload that the engine itself ever reads
or writes: `data.systemName` (read by the dispatch filter, written by the
`entered` event) and `data.context` (written into synthetic `finalize` and
`end` events). -/
structure EventData where
  systemName : Option String := none
  context : Option Context := none
  deriving DecidableEq, Repr

/-- An event record (interface `Event`): all fields optional, `none`
modelling an absent (`undefined`) JavaScript property. -/
structure Event where
  type : Option String := none
  name : Option String := none
  data : Option EventData := none
  deriving DecidableEq, Repr

/-- A state (class `State`): the caller-supplied handler plus an optional
transition observer.  The handler may throw (modelled `.error ()`); otherwise
it returns the next-state token, with `none` standing for
`undefined`/`void`.  The engine only ever tests whether the observer is set
before calling it, so the observer itself is modelled by the flag
`hasOnTransition` and its invocation by a trace effect. -/
structure StateDef where
  handler : Event → Nat → Except Unit (Option String)
  hasOnTransition : Bool := false

/-- Runtime failures of the engine: property access on an `undefined` system
or state, a throwing caller-supplied handler, and the unguarded
`event.data.systemName` dereference in `do()`. -/
inductive Err where
  | lookupSystem (system : String)
  | lookupState (system state : String)
  | handlerFailure (system state : String)
  | dataUndefined
  deriving DecidableEq, Repr

/-- Observable calls the engine makes into caller-supplied code, in program
order. `offered` is an invocation of a context's current state handler from
the `do()` loop; `latestTransition` is the `this.latestTransition =
Date.now()` assignment performed exactly when a dispatch applied a
transition. -/
inductive Eff where
  | offered (system state : String) (e : Event)
  | onTransition (system toState fromState : String) (cargo : Nat)
  | endRun (system : String) (cargo : Nat)
  | finalizeRun (system : String) (cargo : Nat)
  | updateContexts
  | latestTransition
  deriving DecidableEq, Repr

/-- The mutable state of class `Automata`: the system registry, the context
stack, the FIFO event queue, and the next fresh cargo identifier. -/
structure Auto where
  systems : List (String × List (String × StateDef))
  contexts : List Context
  events : List Event
  nextCargo : Nat

/-- Result of an engine operation: outcome (or runtime failure), the state of
the automaton afterwards, and the trace of calls into caller code. -/
structure EResult (α : Type) where
  res : Except Err α
  auto : Auto
  trace : List Eff

/-- Prepends already-emitted effects to the trace of a subsequent result. -/
def EResult.addTrace {α : Type} (tr : List Eff) (r : EResult α) : EResult α :=
  { r with trace := tr ++ r.trace }

/-- Looks up `this.systems[name]`: `none` is JavaScript `undefined`. -/
def lookupSystem (a : Auto) (name : String) : Option (List (String × StateDef)) :=
  (a.systems.find? (fun p => p.fst == name)).map (·.snd)

/-- Looks up a state in a system's map: `none` is JavaScript `undefined`. -/
def lookupState (sys : List (String × StateDef)) (st : String) : Option StateDef :=
  (sys.find? (fun p => p.fst == st)).map (·.snd)

/-- Method `registerSystem`: object-key assignment; the newest binding
shadows any older one under `lookupSystem`. -/
def registerSystem (a : Auto) (name : String) (sys : List (String × StateDef)) : Auto :=
  { a with systems := (name, sys) :: a.systems }

/-- Method `pushEvent(event?)`: appends `event || {}` at the tail of the
queue. -/
def pushEvent (a : Auto) (e : Option Event) : Auto :=
  { a with events := a.events ++ [e.getD {}] }

/-- Method `getCargoStack`. -/
def getCargoStack (a : Auto) : List Nat :=
  a.contexts.map (·.cargo)

/-- Method `getContext`. -/
def getContext (a : Auto) (systemName : String) : Option Context :=
  a.contexts.find? (fun c => c.system == systemName)

/-- Method `isRecentSystem`: compares against
`this.contexts[this.contexts.length - 1]?.system`; on an empty stack the
optional chain yields `undefined` and the strict comparison is false. -/
def isRecentSystem (a : Auto) (systemName : String) : Bool :=
  match a.contexts.getLast? with
  | some c => systemName == c.system
  | none => false

/-- Method `pushContext(systemName)` (source lines 107-124): appends a
context in state `@start` with a fresh cargo, then reads
`this.systems[systemName]['@start'].onTransitionHandler` (crashing when the
system is unregistered or has no `@start`), invokes the observer when set,
notifies the contexts-changed hook, and enqueues the `entered` event.  The
context is pushed before the lookup, so the stack keeps it even on a crash. -/
def pushContext (a : Auto) (systemName : String) : EResult Unit :=
  let context : Context := ⟨systemName, "@start", a.nextCargo⟩
  let a1 := { a with
    contexts := a.contexts ++ [context],
    nextCargo := a.nextCargo + 1 }
  match lookupSystem a1 systemName with
  | none => ⟨.error (.lookupSystem systemName), a1, []⟩
  | some sys =>
    match lookupState sys "@start" with
    | none => ⟨.error (.lookupState systemName "@start"), a1, []⟩
    | some st =>
      let obs := if st.hasOnTransition then
          [Eff.onTransition systemName systemName "@start" context.cargo]
        else []
      let a2 := pushEvent a1 (some
        { type := some "automata", name := some "entered",
          data := some { systemName := some systemName } })
      ⟨.ok (), a2, obs ++ [Eff.updateContexts]⟩

/-- Synthetic event built by `_finalizeContext`; its `data` carries the
context being finalized. -/
def finalizeEvent (c : Context) : Event :=
  { type := some "automata", name := some "finalize", data := some { context := some c } }

/-- Synthetic event built by the `@end` branch of `_transitionTo`. -/
def endEvent (c : Context) : Event :=
  { type := some "automata", name := some "end", data := some { context := some c } }

/-- Method `_finalizeContext` (source lines 126-138): reads
`this.systems[system]['@finalize']` (crashing when the system is
unregistered), and when the state exists runs it on the synthetic `finalize`
event, discarding its return value.  It never touches the stack or queue. -/
def finalizeContext (a : Auto) (context : Context) : EResult Unit :=
  match lookupSystem a context.system with
  | none => ⟨.error (.lookupSystem context.system), a, []⟩
  | some sys =>
    match lookupState sys "@finalize" with
    | none => ⟨.ok (), a, []⟩
    | some st =>
      match st.handler (finalizeEvent context) context.cargo with
      | .error _ => ⟨.error (.handlerFailure context.system "@finalize"), a, []⟩
      | .ok _ => ⟨.ok (), a, [Eff.finalizeRun context.system context.cargo]⟩

/-- Finalizes each removed context (the `Promise.all` fan-out of
`_removeDescendants`).  The fan-out is sequenced here in array order; a
rejection makes the whole `Promise.all` reject, modelled as the first error
with the trace of the finalizations that completed before it. -/
def finalizeAll (a : Auto) : List Context → Except Err Unit × List Eff
  | [] => (.ok (), [])
  | c :: rest =>
    let r := finalizeContext a c
    match r.res with
    | .error e => (.error e, r.trace)
    | .ok _ =>
      let p := finalizeAll a rest
      (p.fst, r.trace ++ p.snd)

/-- The cut position of `_removeDescendants(context)`: `findIndex` plus one
slot for the context itself (`withSelf` is never passed at any call site, so
it is its default `false`).  `findIndex` yields `-1` when the context is
absent, making the cut `0`: `slice(0, 0)` keeps nothing while `slice(0)`
removes everything. -/
def keepCount (a : Auto) (context : Context) : Nat :=
  match a.contexts.findIdx? (fun c => c == context) with
  | some idx => idx + 1
  | none => 0

/-- Method `_removeDescendants(context)` (source lines 140-153).  The
truncated array is assigned to `this.contexts` only after the awaited
`Promise.all` of the finalizations resolves; a rejection skips the
assignment, leaving the stack untouched. -/
def removeDescendants (a : Auto) (context : Context) : EResult Unit :=
  match finalizeAll a (a.contexts.drop (keepCount a context)) with
  | (.error e, tr) => ⟨.error e, a, tr⟩
  | (.ok _, tr) => ⟨.ok (), { a with contexts := a.contexts.take (keepCount a context) }, tr⟩

/-- Shared tail of the child-system branch of `_transitionTo` (source lines
222-228): remove the current context's descendants, then push a fresh
context for the resolved system name. -/
def transitionPushChild (a : Auto) (context : Context) (systemName : String) : EResult Bool :=
  let r := removeDescendants a context
  match r.res with
  | .error e => ⟨.error e, r.auto, r.trace⟩
  | .ok _ =>
    let p := pushContext r.auto systemName
    match p.res with
    | .error e => ⟨.error e, p.auto, r.trace ++ p.trace⟩
    | .ok _ => ⟨.ok true, p.auto, r.trace ++ p.trace ++ [Eff.updateContexts]⟩

/-- Method `_transitionTo(stateName, context)` (source lines 161-250).
JavaScript `stateName.startsWith('#')` is the test that the first character
is `'#'`, and `stateName.slice(1)` drops it.  The `@current` and
child-system branches fall through to the shared contexts-changed
notification at the end of the method, so they notify it twice (once inside
the branch — for the child branch, inside `pushContext` — and once at the
end); the `@end` branch returns early and notifies once. -/
def transitionTo (a : Auto) (stateName : String) (context : Context) : EResult Bool :=
  if stateName = "@end" then
    match lookupSystem a context.system with
    | none => ⟨.error (.lookupSystem context.system), a, []⟩
    | some sys =>
      let endRes : Except Err Unit × List Eff :=
        match lookupState sys "@end" with
        | none => (.ok (), [])
        | some st =>
          match st.handler (endEvent context) context.cargo with
          | .error _ => (.error (.handlerFailure context.system "@end"), [])
          | .ok _ => (.ok (), [Eff.endRun context.system context.cargo])
      match endRes with
      | (.error e, tr) => ⟨.error e, a, tr⟩
      | (.ok _, tr) =>
        match a.contexts.getLast? with
        | none => ⟨.ok false, a, tr⟩
        | some self =>
          let a1 := { a with contexts := a.contexts.dropLast }
          let f := finalizeContext a1 self
          match f.res with
          | .error e => ⟨.error e, a1, tr ++ f.trace⟩
          | .ok _ => ⟨.ok true, a1, tr ++ f.trace ++ [Eff.updateContexts]⟩
  else if stateName = "@current" then
    let r := removeDescendants a context
    match r.res with
    | .error e => ⟨.error e, r.auto, r.trace⟩
    | .ok _ =>
      match lookupSystem r.auto context.system with
      | none => ⟨.error (.lookupSystem context.system), r.auto, r.trace⟩
      | some sys =>
        match lookupState sys context.currentState with
        | none => ⟨.error (.lookupState context.system context.currentState), r.auto, r.trace⟩
        | some st =>
          let obs := if st.hasOnTransition then
              [Eff.onTransition context.system context.currentState context.currentState
                context.cargo]
            else []
          ⟨.ok true, r.auto, r.trace ++ obs ++ [Eff.updateContexts, Eff.updateContexts]⟩
  else if stateName = context.currentState then
    ⟨.ok false, a, []⟩
  else if stateName.data.head? = some '#' then
    let systemName := String.mk stateName.data.tail
    if systemName = "@current" then
      transitionPushChild a context context.system
    else
      let nextSlot : Option Context :=
        match a.contexts.findIdx? (fun c => c == context) with
        | some idx => a.contexts.get? (idx + 1)
        | none => a.contexts.get? 0
      if nextSlot.map (·.system) = some systemName then
        ⟨.ok false, a, []⟩
      else
        transitionPushChild a context systemName
  else
    let r := removeDescendants a context
    match r.res with
    | .error e => ⟨.error e, r.auto, r.trace⟩
    | .ok _ =>
      match lookupSystem r.auto context.system with
      | none => ⟨.error (.lookupSystem context.system), r.auto, r.trace⟩
      | some sys =>
        match lookupState sys stateName with
        | none => ⟨.error (.lookupState context.system stateName), r.auto, r.trace⟩
        | some st =>
          let obs := if st.hasOnTransition then
              [Eff.onTransition context.system stateName context.currentState context.cargo]
            else []
          let a2 := { r.auto with contexts := r.auto.contexts.map (fun x =>
            if x == context then { x with currentState := stateName } else x) }
          ⟨.ok true, a2, r.trace ++ obs ++ [Eff.updateContexts]⟩

/-- The per-context loop body of `do()` (source lines 256-280), iterating the
snapshot of the stack taken when the loop started (every mutation of
`this.contexts` replaces the array, and every mutating branch of the engine
is followed by `break`, so the live array equals the snapshot while the loop
runs).  Per context: `this.systems[system]` is read first (crashing when the
system is unregistered, while a merely missing state only crashes at
`state.run` — after the filter); then the targeted-transition filter, whose
`event.data.systemName` dereference crashes when `data` is absent; then the
handler, whose non-empty string result is fed to the transition engine.
`break` on an applied transition is the `latestTransition` assignment
followed by ignoring the remaining contexts. -/
def dispatch (e : Event) : Auto → List Context → EResult Unit
  | a, [] => ⟨.ok (), a, []⟩
  | a, c :: rest =>
    match lookupSystem a c.system with
    | none => ⟨.error (.lookupSystem c.system), a, []⟩
    | some sys =>
      let filt : Except Err Bool :=
        if e.type == some "automata" && e.name == some "transition" then
          match e.data with
          | none => .error .dataUndefined
          | some d => .ok (d.systemName != some c.system)
        else
          .ok false
      match filt with
      | .error err => ⟨.error err, a, []⟩
      | .ok true => dispatch e a rest
      | .ok false =>
        match lookupState sys c.currentState with
        | none => ⟨.error (.lookupState c.system c.currentState), a, []⟩
        | some st =>
          match st.handler e c.cargo with
          | .error _ =>
            ⟨.error (.handlerFailure c.system c.currentState), a,
              [Eff.offered c.system c.currentState e]⟩
          | .ok none =>
            EResult.addTrace [Eff.offered c.system c.currentState e] (dispatch e a rest)
          | .ok (some s) =>
            if s = "" then
              EResult.addTrace [Eff.offered c.system c.currentState e] (dispatch e a rest)
            else
              let r := transitionTo a s c
              match r.res with
              | .error err =>
                ⟨.error err, r.auto, Eff.offered c.system c.currentState e :: r.trace⟩
              | .ok true =>
                ⟨.ok (), r.auto,
                  Eff.offered c.system c.currentState e :: (r.trace ++ [Eff.latestTransition])⟩
              | .ok false =>
                EResult.addTrace (Eff.offered c.system c.currentState e :: r.trace)
                  (dispatch e r.auto rest)

/-- Method `do()` (source lines 252-282): dequeue the head of the FIFO queue
(the generator `shift`s it before the loop body runs), dispatch it across the
stack, and report whether any context remains.  When the queue is empty the
generator suspends until an event is pushed and nothing else happens, so the
empty-queue step is modelled as the bare report. -/
def doStep (a : Auto) : EResult Bool :=
  match a.events with
  | [] => ⟨.ok (decide (0 < a.contexts.length)), a, []⟩
  | e :: rest =>
    let r := dispatch e { a with events := rest } a.contexts
    match r.res with
    | .error err => ⟨.error err, r.auto, r.trace⟩
    | .ok _ => ⟨.ok (decide (0 < r.auto.contexts.length)), r.auto, r.trace⟩

/-!
Basic facts used throughout: the reserved-token string tests, and how the
cut of `_removeDescendants` behaves on a stack split at the first occurrence
of a context.
-/

theorem data_hash_append (S : String) : ("#" ++ S).data = '#' :: S.data := by
  simp [String.data_append]

theorem hash_append_ne_end (S : String) : "#" ++ S ≠ "@end" := by
  intro h
  have hd : '#' :: S.data = ['@', 'e', 'n', 'd'] := by
    have := congrArg String.data h
    rwa [data_hash_append] at this
  injection hd with h1 _
  exact absurd h1 (by decide)

theorem hash_append_ne_current (S : String) : "#" ++ S ≠ "@current" := by
  intro h
  have hd : '#' :: S.data = ['@', 'c', 'u', 'r', 'r', 'e', 'n', 't'] := by
    have := congrArg String.data h
    rwa [data_hash_append] at this
  injection hd with h1 _
  exact absurd h1 (by decide)

theorem head?_hash (S : String) : ("#" ++ S).data.head? = some '#' := by
  rw [data_hash_append]; rfl

theorem mk_tail_hash (S : String) : String.mk (("#" ++ S).data.tail) = S := by
  rw [data_hash_append]
  rfl

theorem findIdx?_first_aux (c : Context) (front tail : List Context)
    (h : ∀ x ∈ front, x ≠ c) :
    ∀ i, List.findIdx? (fun x => x == c) (front ++ c :: tail) i =
      some (front.length + i) := by
  induction front with
  | nil => intro i; simp [List.findIdx?_cons]
  | cons x fr ih =>
    intro i
    have hx : (x == c) = false :=
      beq_eq_false_iff_ne.mpr (h x (List.mem_cons_self x fr))
    have hrec := ih (fun y hy => h y (List.mem_cons_of_mem x hy)) (i + 1)
    simp only [List.cons_append, List.findIdx?_cons, hx, Bool.false_eq_true, if_false, hrec,
      List.length_cons]
    congr 1
    omega

theorem findIdx?_first (front tail : List Context) (c : Context)
    (h : ∀ x ∈ front, x ≠ c) :
    (front ++ c :: tail).findIdx? (fun x => x == c) = some front.length := by
  have := findIdx?_first_aux c front tail h 0
  simpa using this

theorem keepCount_split (a : Auto) (c : Context) (front tail : List Context)
    (hc : a.contexts = front ++ c :: tail) (h : ∀ x ∈ front, x ≠ c) :
    keepCount a c = front.length + 1 := by
  unfold keepCount
  rw [hc, findIdx?_first front tail c h]

theorem take_split (front tail : List Context) (c : Context) :
    (front ++ c :: tail).take (front.length + 1) = front ++ [c] := by
  induction front with
  | nil => rfl
  | cons x fr ih => simp [ih]

theorem drop_split (front tail : List Context) (c : Context) :
    (front ++ c :: tail).drop (front.length + 1) = tail := by
  induction front with
  | nil => rfl
  | cons x fr ih => simp [ih]

theorem get?_split (front tail : List Context) (c : Context) :
    (front ++ c :: tail).get? (front.length + 1) = tail.head? := by
  induction front with
  | nil => cases tail <;> rfl
  | cons x fr ih => simpa using ih

theorem removeDescendants_split (a : Auto) (c : Context) (front tail : List Context)
    (hc : a.contexts = front ++ c :: tail) (h : ∀ x ∈ front, x ≠ c) :
    removeDescendants a c =
      match finalizeAll a tail with
      | (.error e, tr) => ⟨.error e, a, tr⟩
      | (.ok _, tr) => ⟨.ok (), { a with contexts := front ++ [c] }, tr⟩ := by
  unfold removeDescendants
  rw [keepCount_split a c front tail hc h, hc, drop_split, take_split]

/-!
Concrete fixtures used by the witnesses: a `main` system that enters a `sub`
child, and a system whose `@finalize` handler throws.
-/

def wReturn (tok : Option String) : StateDef := ⟨fun _ _ => .ok tok, false⟩

def wReturnObs (tok : Option String) : StateDef := ⟨fun _ _ => .ok tok, true⟩

def wThrow : StateDef := ⟨fun _ _ => .error (), false⟩

def wMainSys : List (String × StateDef) :=
  [("@start", wReturnObs (some "state1")), ("state1", wReturn (some "#sub")),
   ("idle", wReturn none), ("@end", wReturn none), ("@finalize", wReturn none)]

def wSubSys : List (String × StateDef) :=
  [("@start", wReturn (some "substate")), ("substate", wReturn (some "@end")),
   ("@end", wReturn none), ("@finalize", wReturn none)]

def wBadSys : List (String × StateDef) :=
  [("@start", wReturn none), ("@finalize", wThrow)]

/-!
Claim C4: requesting the current state without the `@current` token is a
rejected no-op.
-/

/-- C4: for every context and requested token equal to its `currentState`
(the token being neither `@end` nor `@current`, which are matched earlier),
the transition engine returns failure and performs no mutation of any kind:
the automaton is returned unchanged and no observer or contexts-changed hook
is called (empty trace). -/
theorem claim4_same_state_rejected (a : Auto) (c : Context) (s : String)
    (h1 : s ≠ "@end") (h2 : s ≠ "@current") (h3 : s = c.currentState) :
    transitionTo a s c = ⟨.ok false, a, []⟩ := by
  unfold transitionTo
  rw [if_neg h1, if_neg h2, if_pos h3]

def w4 : Auto :=
  { systems := [("main", wMainSys)], contexts := [⟨"main", "idle", 0⟩],
    events := [], nextCargo := 1 }

theorem claim4_same_state_rejected_witness :
    transitionTo w4 "idle" ⟨"main", "idle", 0⟩ = ⟨.ok false, w4, []⟩ :=
  claim4_same_state_rejected w4 ⟨"main", "idle", 0⟩ "idle" (by decide) (by decide) rfl

/-!
Claim C5: a child-system request whose adjacent child already runs that
system is a rejected no-op.
-/

/-- C5: when a context's handler requests `#S` for an ordinary system name
`S` (not the literal `@current`) and the stack slot immediately after that
context already holds a context whose system is `S`, the operation is
idempotent: failure is reported and the automaton — stack depth, the
identity of the existing child, its cargo — is returned unchanged, with no
observer calls. -/
theorem claim5_child_entry_idempotent (a : Auto) (c : Context) (S : String)
    (front tail : List Context) (child : Context)
    (hstack : a.contexts = front ++ c :: child :: tail)
    (hfirst : ∀ x ∈ front, x ≠ c)
    (hS : S ≠ "@current")
    (hcur : "#" ++ S ≠ c.currentState)
    (hchild : child.system = S) :
    transitionTo a ("#" ++ S) c = ⟨.ok false, a, []⟩ := by
  unfold transitionTo
  rw [if_neg (hash_append_ne_end S), if_neg (hash_append_ne_current S), if_neg hcur,
    if_pos (head?_hash S)]
  simp only [mk_tail_hash, if_neg hS]
  rw [hstack, findIdx?_first front (child :: tail) c hfirst]
  simp only [get?_split, List.head?_cons]
  rw [if_pos (by simp [hchild])]

def w5 : Auto :=
  { systems := [("main", wMainSys), ("sub", wSubSys)],
    contexts := [⟨"main", "state1", 0⟩, ⟨"sub", "@start", 1⟩],
    events := [], nextCargo := 2 }

theorem claim5_child_entry_idempotent_witness :
    transitionTo w5 ("#" ++ "sub") ⟨"main", "state1", 0⟩ = ⟨.ok false, w5, []⟩ :=
  claim5_child_entry_idempotent w5 ⟨"main", "state1", 0⟩ "sub" [] []
    ⟨"sub", "@start", 1⟩ rfl (by simp) (by decide) (by decide) rfl

/-!
Claim C1: on the top-of-stack context, the token `@end` runs the system's
`@end` state when defined, pops exactly that context, finalizes it, leaves
every context below unchanged, and reports success.
-/

theorem finalizeContext_eval (a : Auto) (c : Context) (sys : List (String × StateDef))
    (hsys : lookupSystem a c.system = some sys) :
    finalizeContext a c =
      match lookupState sys "@finalize" with
      | none => ⟨.ok (), a, []⟩
      | some st =>
        match st.handler (finalizeEvent c) c.cargo with
        | .error _ => ⟨.error (.handlerFailure c.system "@finalize"), a, []⟩
        | .ok _ => ⟨.ok (), a, [Eff.finalizeRun c.system c.cargo]⟩ := by
  unfold finalizeContext
  rw [hsys]

/-- C1: for a context at the top of the stack whose handler requests
`@end` (with its system registered and the `@end` and `@finalize` handlers,
where defined, returning normally), the transition engine first runs the
system's `@end` state when defined (discarding its value), then pops exactly
that one context — the stack becomes exactly the contexts below it — then
runs the system's `@finalize` on it when defined, and reports success. -/
theorem claim1_end_pops_top (a : Auto) (c : Context) (front : List Context)
    (sys : List (String × StateDef))
    (hstack : a.contexts = front ++ [c])
    (hsys : lookupSystem a c.system = some sys)
    (hend : ∀ st, lookupState sys "@end" = some st →
      ∃ v, st.handler (endEvent c) c.cargo = .ok v)
    (hfin : ∀ st, lookupState sys "@finalize" = some st →
      ∃ v, st.handler (finalizeEvent c) c.cargo = .ok v) :
    (transitionTo a "@end" c).res = .ok true ∧
    (transitionTo a "@end" c).auto.contexts = front ∧
    (transitionTo a "@end" c).trace =
      (match lookupState sys "@end" with
        | some _ => [Eff.endRun c.system c.cargo]
        | none => []) ++
      ((match lookupState sys "@finalize" with
        | some _ => [Eff.finalizeRun c.system c.cargo]
        | none => []) ++ [Eff.updateContexts]) := by
  have hfc := finalizeContext_eval { a with contexts := front } c sys hsys
  unfold transitionTo
  rw [if_pos rfl, hsys]
  cases hE : lookupState sys "@end" with
  | none =>
    cases hF : lookupState sys "@finalize" with
    | none =>
      simp [hE, hF, hstack, List.getLast?_concat, List.dropLast_concat, hfc]
    | some st2 =>
      obtain ⟨v2, hv2⟩ := hfin st2 hF
      simp [hE, hF, hv2, hstack, List.getLast?_concat, List.dropLast_concat, hfc]
  | some st1 =>
    obtain ⟨v1, hv1⟩ := hend st1 hE
    cases hF : lookupState sys "@finalize" with
    | none =>
      simp [hE, hF, hv1, hstack, List.getLast?_concat, List.dropLast_concat, hfc]
    | some st2 =>
      obtain ⟨v2, hv2⟩ := hfin st2 hF
      simp [hE, hF, hv1, hv2, hstack, List.getLast?_concat, List.dropLast_concat, hfc]

def w1 : Auto :=
  { systems := [("sub", wSubSys)], contexts := [⟨"sub", "substate", 1⟩],
    events := [], nextCargo := 2 }

theorem claim1_end_pops_top_witness :
    (transitionTo w1 "@end" ⟨"sub", "substate", 1⟩).res = .ok true ∧
    (transitionTo w1 "@end" ⟨"sub", "substate", 1⟩).auto.contexts = [] ∧
    (transitionTo w1 "@end" ⟨"sub", "substate", 1⟩).trace =
      [Eff.endRun "sub" 1] ++ ([Eff.finalizeRun "sub" 1] ++ [Eff.updateContexts]) :=
  claim1_end_pops_top w1 ⟨"sub", "substate", 1⟩ [] wSubSys rfl rfl
    (fun _ hst => by cases hst; exact ⟨none, rfl⟩)
    (fun _ hst => by cases hst; exact ⟨none, rfl⟩)

/-!
Claim C7: `pushContext` appends a fresh `@start` context, announces entry,
and enqueues the `entered` event at the tail.
-/

/-- C7: for a registered system name `S` whose map has an `@start` state,
`pushContext S` appends to the stack a new context in state `@start` whose
cargo is freshly allocated (distinct from every existing context's cargo,
given that every live cargo identifier is below the allocation counter),
invokes the `@start` state's observer with `(S, "@start", cargo)` when set,
and enqueues at the tail of the event queue the event
`{type: "automata", name: "entered", data: {systemName: S}}`. -/
theorem claim7_push_context (a : Auto) (S : String)
    (sys : List (String × StateDef)) (st : StateDef)
    (hsys : lookupSystem a S = some sys)
    (hst : lookupState sys "@start" = some st)
    (hfresh : ∀ c ∈ a.contexts, c.cargo < a.nextCargo) :
    (pushContext a S).res = .ok () ∧
    (pushContext a S).auto.contexts = a.contexts ++ [⟨S, "@start", a.nextCargo⟩] ∧
    (∀ c ∈ a.contexts, c.cargo ≠ a.nextCargo) ∧
    (pushContext a S).trace =
      (if st.hasOnTransition then [Eff.onTransition S S "@start" a.nextCargo] else []) ++
      [Eff.updateContexts] ∧
    (pushContext a S).auto.events = a.events ++
      [{ type := some "automata", name := some "entered",
         data := some { systemName := some S } }] := by
  have hsys1 : lookupSystem { a with
      contexts := a.contexts ++ [⟨S, "@start", a.nextCargo⟩],
      nextCargo := a.nextCargo + 1 } S = some sys := hsys
  unfold pushContext pushEvent
  simp only [hsys1, hst]
  refine ⟨by trivial, by trivial, ?_, by trivial, by trivial⟩
  intro c hc
  exact Nat.ne_of_lt (hfresh c hc)

def w7 : Auto :=
  { systems := [("main", wMainSys), ("sub", wSubSys)],
    contexts := [⟨"main", "state1", 0⟩], events := [], nextCargo := 1 }

theorem claim7_push_context_witness :
    (pushContext w7 "sub").res = .ok () ∧
    (pushContext w7 "sub").auto.contexts =
      [⟨"main", "state1", 0⟩] ++ [⟨"sub", "@start", 1⟩] ∧
    (∀ c ∈ w7.contexts, c.cargo ≠ w7.nextCargo) ∧
    (pushContext w7 "sub").trace =
      (if (wReturn (some "substate")).hasOnTransition then
        [Eff.onTransition "sub" "sub" "@start" 1] else []) ++ [Eff.updateContexts] ∧
    (pushContext w7 "sub").auto.events = w7.events ++
      [{ type := some "automata", name := some "entered",
         data := some { systemName := some "sub" } }] :=
  claim7_push_context w7 "sub" wSubSys (wReturn (some "substate")) rfl rfl
    (by decide)

/-!
Claim C3: stack truncation commits only after every removed context's
finalization completed; a failing finalization leaves the stack untouched.
-/

theorem finalizeAll_cons (a : Auto) (y : Context) (ys : List Context) :
    finalizeAll a (y :: ys) =
      match (finalizeContext a y).res with
      | .error e => (.error e, (finalizeContext a y).trace)
      | .ok _ =>
        ((finalizeAll a ys).fst, (finalizeContext a y).trace ++ (finalizeAll a ys).snd) :=
  rfl

theorem finalizeAll_ok_mem (a : Auto) (l : List Context)
    (h : (finalizeAll a l).fst = .ok ()) :
    ∀ x ∈ l, (finalizeContext a x).res = .ok () ∧
      (finalizeContext a x).trace ⊆ (finalizeAll a l).snd := by
  induction l with
  | nil => intro x hx; exact absurd hx (List.not_mem_nil x)
  | cons y ys ih =>
    rw [finalizeAll_cons] at h ⊢
    cases hr : (finalizeContext a y).res with
    | error e => rw [hr] at h; exact absurd h (by simp)
    | ok u =>
      cases u
      rw [hr] at h
      dsimp only at h ⊢
      intro x hx
      rcases List.mem_cons.mp hx with hx | hx
      · subst hx
        exact ⟨hr, fun t ht => List.mem_append_left _ ht⟩
      · obtain ⟨h1, h2⟩ := ih h x hx
        exact ⟨h1, fun t ht => List.mem_append_right _ (h2 ht)⟩

theorem finalizeAll_fail (a : Auto) (l : List Context) (x : Context)
    (hx : x ∈ l) (hfail : ∀ u, (finalizeContext a x).res ≠ .ok u) :
    ∀ u, (finalizeAll a l).fst ≠ .ok u := by
  induction l with
  | nil => exact absurd hx (List.not_mem_nil x)
  | cons y ys ih =>
    intro u
    rw [finalizeAll_cons]
    cases hr : (finalizeContext a y).res with
    | error e => simp
    | ok v =>
      dsimp only
      rcases List.mem_cons.mp hx with hxy | hxy
      · subst hxy; exact absurd hr (hfail v)
      · simpa using ih hxy u

/-- C3: `_removeDescendants` is atomic with respect to finalization failure.
If it fails, the automaton — in particular the contexts stack — is returned
completely unchanged, with no partial truncation.  If it succeeds, the new
stack is exactly the slice kept by the cut and every removed context's
finalization has completed (its finalize handler succeeded and its trace is
part of the operation's trace).  And if any removed context's finalization
fails, the whole operation fails. -/
theorem claim3_truncation_atomic (a : Auto) (c : Context) :
    (∀ e a2 tr, removeDescendants a c = ⟨.error e, a2, tr⟩ → a2 = a) ∧
    ((removeDescendants a c).res = .ok () →
      (removeDescendants a c).auto.contexts = a.contexts.take (keepCount a c) ∧
      ∀ x ∈ a.contexts.drop (keepCount a c),
        (finalizeContext a x).res = .ok () ∧
        (finalizeContext a x).trace ⊆ (removeDescendants a c).trace) ∧
    (∀ x ∈ a.contexts.drop (keepCount a c),
      (∀ u, (finalizeContext a x).res ≠ .ok u) →
      ∀ u, (removeDescendants a c).res ≠ .ok u) := by
  rcases hfa : finalizeAll a (a.contexts.drop (keepCount a c)) with ⟨res, tr⟩
  cases res with
  | error e =>
    have hrd : removeDescendants a c = ⟨.error e, a, tr⟩ := by
      unfold removeDescendants
      rw [hfa]
    refine ⟨?_, ?_, ?_⟩
    · intro e2 a2 tr2 h
      rw [hrd] at h
      injection h with _ h2 _
      exact h2.symm
    · intro hok
      rw [hrd] at hok
      exact absurd hok (by simp)
    · intro x hx hfail u hok
      rw [hrd] at hok
      exact absurd hok (by simp)
  | ok u =>
    cases u
    have hrd : removeDescendants a c =
        ⟨.ok (), { a with contexts := a.contexts.take (keepCount a c) }, tr⟩ := by
      unfold removeDescendants
      rw [hfa]
    refine ⟨?_, ?_, ?_⟩
    · intro e2 a2 tr2 h
      rw [hrd] at h
      injection h with h1 _ _
      exact absurd h1 (by simp)
    · intro _
      refine ⟨by rw [hrd], ?_⟩
      intro x hx
      obtain ⟨h1, h2⟩ := finalizeAll_ok_mem a (a.contexts.drop (keepCount a c))
        (by rw [hfa]) x hx
      refine ⟨h1, ?_⟩
      rw [hrd]
      rw [hfa] at h2
      exact h2
    · intro x hx hfail u
      have := finalizeAll_fail a (a.contexts.drop (keepCount a c)) x hx hfail ()
      rw [hfa] at this
      exact absurd rfl this

def w3 : Auto :=
  { systems := [("main", wMainSys), ("bad", wBadSys)],
    contexts := [⟨"main", "state1", 0⟩, ⟨"bad", "@start", 1⟩],
    events := [], nextCargo := 2 }

theorem claim3_truncation_atomic_witness :
    (removeDescendants w3 ⟨"main", "state1", 0⟩).auto = w3 :=
  (claim3_truncation_atomic w3 ⟨"main", "state1", 0⟩).1
    (.handlerFailure "bad" "@finalize")
    (removeDescendants w3 ⟨"main", "state1", 0⟩).auto
    (removeDescendants w3 ⟨"main", "state1", 0⟩).trace rfl

/-!
Claim C6: the `@current` token always succeeds, discards exactly the
descendants, re-announces the current state, and leaves `currentState`
unchanged.
-/

/-- C6: for a context on the stack whose descendants all finalize normally
(and whose system and current state are registered), requesting `@current`
succeeds, removes all of that context's descendants — finalizing each of
them — but not the context itself, invokes the current state's observer
with `to` and `from` both equal to `currentState` when it is set, and leaves
the context (in particular its `currentState`) unchanged on the stack. -/
theorem claim6_reenter_current (a : Auto) (c : Context) (front tail : List Context)
    (sys : List (String × StateDef)) (st : StateDef)
    (hstack : a.contexts = front ++ c :: tail)
    (hfirst : ∀ x ∈ front, x ≠ c)
    (hfin : (finalizeAll a tail).fst = .ok ())
    (hsys : lookupSystem a c.system = some sys)
    (hst : lookupState sys c.currentState = some st) :
    transitionTo a "@current" c =
      ⟨.ok true, { a with contexts := front ++ [c] },
        (finalizeAll a tail).snd ++
        (if st.hasOnTransition then
          [Eff.onTransition c.system c.currentState c.currentState c.cargo]
        else []) ++
        [Eff.updateContexts, Eff.updateContexts]⟩ ∧
    ∀ x ∈ tail, (finalizeContext a x).res = .ok () ∧
      (finalizeContext a x).trace ⊆ (transitionTo a "@current" c).trace := by
  have hrd0 := removeDescendants_split a c front tail hstack hfirst
  rcases hfa : finalizeAll a tail with ⟨res, tr⟩
  rw [hfa] at hrd0 hfin
  simp only at hfin
  subst hfin
  have hrd : removeDescendants a c =
      ⟨.ok (), { a with contexts := front ++ [c] }, tr⟩ := hrd0
  have hsys2 : lookupSystem { a with contexts := front ++ [c] } c.system = some sys := hsys
  have hmem := finalizeAll_ok_mem a tail (by rw [hfa])
  have keq : transitionTo a "@current" c =
      ⟨.ok true, { a with contexts := front ++ [c] },
        tr ++
        (if st.hasOnTransition then
          [Eff.onTransition c.system c.currentState c.currentState c.cargo]
        else []) ++
        [Eff.updateContexts, Eff.updateContexts]⟩ := by
    unfold transitionTo
    rw [if_neg (by decide), if_pos rfl, hrd]
    simp only [hsys2, hst]
  constructor
  · exact keq
  · intro x hx
    obtain ⟨h1, h2⟩ := hmem x hx
    rw [hfa] at h2
    refine ⟨h1, ?_⟩
    rw [keq]
    intro t ht
    exact List.mem_append_left _ (List.mem_append_left _ (h2 ht))

def w6 : Auto :=
  { systems := [("main", wMainSys), ("sub", wSubSys)],
    contexts := [⟨"main", "state1", 0⟩, ⟨"sub", "@start", 1⟩],
    events := [], nextCargo := 2 }

theorem claim6_reenter_current_witness :
    transitionTo w6 "@current" ⟨"main", "state1", 0⟩ =
      ⟨.ok true, { w6 with contexts := [] ++ [⟨"main", "state1", 0⟩] },
        (finalizeAll w6 [⟨"sub", "@start", 1⟩]).snd ++
        (if (wReturn (some "#sub")).hasOnTransition then
          [Eff.onTransition "main" "state1" "state1" 0]
        else []) ++
        [Eff.updateContexts, Eff.updateContexts]⟩ ∧
    ∀ x ∈ [(⟨"sub", "@start", 1⟩ : Context)],
      (finalizeContext w6 x).res = .ok () ∧
      (finalizeContext w6 x).trace ⊆ (transitionTo w6 "@current" ⟨"main", "state1", 0⟩).trace :=
  claim6_reenter_current w6 ⟨"main", "state1", 0⟩ [] [⟨"sub", "@start", 1⟩]
    wMainSys (wReturn (some "#sub")) rfl (by simp) rfl rfl rfl

/-!
Infrastructure for the step-loop claims: classify trace effects, the
reserved-token invariant on `currentState`, and the shape every transition
result has (no `offered`/`latestTransition` effects of its own, events only
appended at the tail, invariant preserved).
-/

/-- True for the effects the transition engine itself can emit; `offered`
and `latestTransition` are emitted only by the `do()` loop. -/
def isQuiet : Eff → Bool
  | .offered _ _ _ => false
  | .latestTransition => false
  | _ => true

/-- Projects an `offered` effect to the context key it was offered to. -/
def offKey : Eff → Option (String × String)
  | .offered s st _ => some (s, st)
  | _ => none

/-- A state name the engine can store in `currentState`: none of the
reserved tokens that the transition engine intercepts before assignment. -/
def validCS (s : String) : Prop :=
  s ≠ "@end" ∧ s ≠ "@current" ∧ s.data.head? ≠ some '#'

/-- C9's invariant: every context on the stack has a storable state name. -/
def Inv (a : Auto) : Prop := ∀ c ∈ a.contexts, validCS c.currentState

instance (s : String) : Decidable (validCS s) := by
  unfold validCS
  infer_instance

instance (a : Auto) : Decidable (Inv a) := by
  unfold Inv
  exact List.decidableBAll _ _

/-- A `latestTransition` effect can only close the trace: nothing is emitted
after it. -/
def lastOnly (tr : List Eff) : Prop :=
  ∀ t1 t2, tr = t1 ++ Eff.latestTransition :: t2 → t2 = []

/-- Packages what every engine sub-operation guarantees to the `do()` loop:
a quiet trace, events only appended at the queue's tail, and preservation of
the `currentState` invariant. -/
def GoodRes (a : Auto) {α : Type} (r : EResult α) : Prop :=
  (∀ x ∈ r.trace, isQuiet x) ∧
  (∃ t, r.auto.events = a.events ++ t) ∧
  (Inv a → Inv r.auto)

theorem goodRes_same (a : Auto) {α : Type} (res : Except Err α) :
    GoodRes a ⟨res, a, []⟩ :=
  ⟨by simp, ⟨[], by simp⟩, fun h => h⟩

theorem lastOnly_nil : lastOnly [] := by
  intro t1 t2 h
  exact absurd h (by simp)

theorem lastOnly_of_not_mem (tr : List Eff) (h : Eff.latestTransition ∉ tr) :
    lastOnly tr := by
  intro t1 t2 heq
  exact absurd (by rw [heq]; exact List.mem_append_right _ (List.mem_cons_self _ _)) h

theorem lastOnly_append (pre rest : List Eff) (h1 : Eff.latestTransition ∉ pre)
    (h2 : lastOnly rest) : lastOnly (pre ++ rest) := by
  induction pre with
  | nil => simpa using h2
  | cons p ps ih =>
    intro t1 t2 heq
    cases t1 with
    | nil =>
      simp only [List.nil_append, List.cons_append] at heq
      injection heq with hpe _
      exact absurd (by simp [hpe]) h1
    | cons q qs =>
      simp only [List.cons_append] at heq
      injection heq with _ hrest
      exact ih (fun hm => h1 (List.mem_cons_of_mem _ hm)) qs t2 hrest

theorem lastOnly_closing (pre : List Eff) (h1 : Eff.latestTransition ∉ pre) :
    lastOnly (pre ++ [Eff.latestTransition]) := by
  refine lastOnly_append pre [Eff.latestTransition] h1 ?_
  intro t1 t2 heq
  cases t1 with
  | nil =>
    simp only [List.nil_append] at heq
    injection heq with _ h
    exact h.symm
  | cons q qs =>
    injection heq with _ h
    exact absurd h (by simp)

theorem not_lt_of_quiet (tr : List Eff) (h : ∀ x ∈ tr, isQuiet x) :
    Eff.latestTransition ∉ tr := by
  intro hm
  have := h _ hm
  simp [isQuiet] at this

theorem not_offered_of_quiet (tr : List Eff) (h : ∀ x ∈ tr, isQuiet x)
    (s st : String) (x : Event) : Eff.offered s st x ∉ tr := by
  intro hm
  have := h _ hm
  simp [isQuiet] at this

theorem filterMap_quiet (tr : List Eff) (h : ∀ x ∈ tr, isQuiet x) :
    tr.filterMap offKey = [] := by
  refine List.filterMap_eq_nil_iff.mpr (fun x hx => ?_)
  have hq := h x hx
  cases x
  all_goals first
  | rfl
  | simp [isQuiet] at hq

theorem finalizeContext_auto (a : Auto) (c : Context) :
    (finalizeContext a c).auto = a := by
  unfold finalizeContext
  split
  · rfl
  · split
    · rfl
    · split
      all_goals rfl

theorem finalizeContext_quiet (a : Auto) (c : Context) :
    ∀ x ∈ (finalizeContext a c).trace, isQuiet x := by
  unfold finalizeContext
  split
  · simp
  · split
    · simp
    · split
      · simp
      · simp [isQuiet]

theorem finalizeAll_quiet (a : Auto) (l : List Context) :
    ∀ x ∈ (finalizeAll a l).snd, isQuiet x := by
  induction l with
  | nil => simp [finalizeAll]
  | cons y ys ih =>
    rw [finalizeAll_cons]
    cases (finalizeContext a y).res with
    | error e => exact finalizeContext_quiet a y
    | ok v =>
      dsimp only
      intro x hx
      rcases List.mem_append.mp hx with hx | hx
      · exact finalizeContext_quiet a y x hx
      · exact ih x hx

theorem removeDescendants_shape (a : Auto) (c : Context) :
    (∀ x ∈ (removeDescendants a c).trace, isQuiet x) ∧
    ((removeDescendants a c).auto = a ∨
      (removeDescendants a c).auto =
        { a with contexts := a.contexts.take (keepCount a c) }) := by
  have hq := finalizeAll_quiet a (a.contexts.drop (keepCount a c))
  unfold removeDescendants
  rcases hfa : finalizeAll a (a.contexts.drop (keepCount a c)) with ⟨res, tr⟩
  rw [hfa] at hq
  cases res with
  | error e => exact ⟨hq, Or.inl rfl⟩
  | ok v => exact ⟨hq, Or.inr rfl⟩

theorem removeDescendants_good (a : Auto) (c : Context) :
    GoodRes a (removeDescendants a c) := by
  obtain ⟨hq, hcases⟩ := removeDescendants_shape a c
  refine ⟨hq, ?_, ?_⟩
  · rcases hcases with h | h <;> rw [h] <;> exact ⟨[], by simp⟩
  · intro hinv
    rcases hcases with h | h <;> rw [h]
    · exact hinv
    · intro x hx
      exact hinv x (List.take_subset _ _ hx)

theorem pushContext_shape (a : Auto) (S : String) :
    (∀ x ∈ (pushContext a S).trace, isQuiet x) ∧
    (pushContext a S).auto.contexts = a.contexts ++ [⟨S, "@start", a.nextCargo⟩] ∧
    ((pushContext a S).auto.events = a.events ∨
      (pushContext a S).auto.events = a.events ++
        [{ type := some "automata", name := some "entered",
           data := some { systemName := some S } }]) := by
  unfold pushContext pushEvent
  dsimp only
  split
  · exact ⟨by simp, rfl, Or.inl rfl⟩
  · split
    · exact ⟨by simp, rfl, Or.inl rfl⟩
    · rename_i st _
      refine ⟨?_, rfl, Or.inr rfl⟩
      intro x hx
      rcases List.mem_append.mp hx with hx | hx
      · by_cases hobs : st.hasOnTransition
        · rw [if_pos hobs] at hx
          rcases List.mem_singleton.mp hx with rfl
          rfl
        · rw [if_neg hobs] at hx
          exact absurd hx (List.not_mem_nil x)
      · rcases List.mem_singleton.mp hx with rfl
        rfl

theorem pushContext_good (a : Auto) (S : String) : GoodRes a (pushContext a S) := by
  obtain ⟨hq, hctx, hev⟩ := pushContext_shape a S
  refine ⟨hq, ?_, ?_⟩
  · rcases hev with h | h <;> rw [h]
    · exact ⟨[], by simp⟩
    · exact ⟨_, rfl⟩
  · intro hinv x hx
    rw [hctx] at hx
    rcases List.mem_append.mp hx with hx | hx
    · exact hinv x hx
    · rcases List.mem_singleton.mp hx with rfl
      exact (by decide : validCS "@start")

theorem goodRes_trans (a b : Auto) {α β : Type} (r1 : EResult α) (r2 : EResult β)
    (h1 : GoodRes a r1) (hb : r1.auto = b) (h2 : GoodRes b r2) :
    (∀ x ∈ r1.trace ++ r2.trace, isQuiet x) ∧
    (∃ t, r2.auto.events = a.events ++ t) ∧
    (Inv a → Inv r2.auto) := by
  obtain ⟨q1, ⟨t1, e1⟩, i1⟩ := h1
  obtain ⟨q2, ⟨t2, e2⟩, i2⟩ := h2
  subst hb
  refine ⟨?_, ⟨t1 ++ t2, by rw [e2, e1, List.append_assoc]⟩, fun h => i2 (i1 h)⟩
  intro x hx
  rcases List.mem_append.mp hx with hx | hx
  · exact q1 x hx
  · exact q2 x hx

theorem transitionPushChild_good (a : Auto) (c : Context) (S : String) :
    GoodRes a (transitionPushChild a c S) := by
  have hrd := removeDescendants_good a c
  unfold transitionPushChild
  rcases hrdeq : removeDescendants a c with ⟨res, a2, tr⟩
  rw [hrdeq] at hrd
  dsimp only
  cases res with
  | error e => exact hrd
  | ok v =>
    have hpc := pushContext_good a2 S
    rcases hpceq : pushContext a2 S with ⟨res2, a3, tr2⟩
    rw [hpceq] at hpc
    have hcomp := goodRes_trans a a2 (⟨.ok v, a2, tr⟩ : EResult Unit)
      (⟨res2, a3, tr2⟩ : EResult Unit) hrd rfl hpc
    obtain ⟨hq, hev, hinv⟩ := hcomp
    dsimp only at hq hev hinv
    dsimp only
    cases res2 with
    | error e2 => exact ⟨hq, hev, hinv⟩
    | ok v2 =>
      refine ⟨?_, hev, hinv⟩
      intro x hx
      rcases List.mem_append.mp hx with hx | hx
      · exact hq x hx
      · rcases List.mem_singleton.mp hx with rfl
        rfl

theorem transitionTo_good (a : Auto) (s : String) (c : Context) :
    GoodRes a (transitionTo a s c) := by
  unfold transitionTo
  by_cases h1 : s = "@end"
  · rw [if_pos h1]
    split
    · exact goodRes_same a _
    · rename_i sys hsys
      dsimp only
      cases hE : lookupState sys "@end" with
      | none =>
        dsimp only
        cases hL : a.contexts.getLast? with
        | none => exact goodRes_same a _
        | some self =>
          dsimp only
          have hfa := finalizeContext_auto { a with contexts := a.contexts.dropLast } self
          have hfq := finalizeContext_quiet { a with contexts := a.contexts.dropLast } self
          rcases hfc : finalizeContext { a with contexts := a.contexts.dropLast } self
            with ⟨fres, fa, ftr⟩
          rw [hfc] at hfa hfq
          dsimp only at hfa hfq
          subst hfa
          dsimp only
          cases fres with
          | error e =>
            refine ⟨?_, ⟨[], by simp⟩, fun hinv x hx => hinv x (List.dropLast_subset _ hx)⟩
            intro x hx
            rcases List.mem_append.mp hx with hx | hx
            · exact absurd hx (List.not_mem_nil x)
            · exact hfq x hx
          | ok v =>
            refine ⟨?_, ⟨[], by simp⟩, fun hinv x hx => hinv x (List.dropLast_subset _ hx)⟩
            intro x hx
            rcases List.mem_append.mp hx with hx | hx
            · rcases List.mem_append.mp hx with hx | hx
              · exact absurd hx (List.not_mem_nil x)
              · exact hfq x hx
            · rcases List.mem_singleton.mp hx with rfl
              rfl
      | some st =>
        dsimp only
        cases hH : st.handler (endEvent c) c.cargo with
        | error err => exact goodRes_same a _
        | ok v =>
          dsimp only
          cases hL : a.contexts.getLast? with
          | none =>
            refine ⟨?_, ⟨[], by simp⟩, fun h => h⟩
            intro x hx
            rcases List.mem_singleton.mp hx with rfl
            rfl
          | some self =>
            dsimp only
            have hfa := finalizeContext_auto { a with contexts := a.contexts.dropLast } self
            have hfq := finalizeContext_quiet { a with contexts := a.contexts.dropLast } self
            rcases hfc : finalizeContext { a with contexts := a.contexts.dropLast } self
              with ⟨fres, fa, ftr⟩
            rw [hfc] at hfa hfq
            dsimp only at hfa hfq
            subst hfa
            dsimp only
            cases fres with
            | error e =>
              refine ⟨?_, ⟨[], by simp⟩, fun hinv x hx => hinv x (List.dropLast_subset _ hx)⟩
              intro x hx
              rcases List.mem_append.mp hx with hx | hx
              · rcases List.mem_singleton.mp hx with rfl
                rfl
              · exact hfq x hx
            | ok v2 =>
              refine ⟨?_, ⟨[], by simp⟩, fun hinv x hx => hinv x (List.dropLast_subset _ hx)⟩
              intro x hx
              rcases List.mem_append.mp hx with hx | hx
              · rcases List.mem_append.mp hx with hx | hx
                · rcases List.mem_singleton.mp hx with rfl
                  rfl
                · exact hfq x hx
              · rcases List.mem_singleton.mp hx with rfl
                rfl
  · rw [if_neg h1]
    by_cases h2 : s = "@current"
    · rw [if_pos h2]
      have hrd := removeDescendants_good a c
      rcases hrdeq : removeDescendants a c with ⟨res, a2, tr⟩
      rw [hrdeq] at hrd
      obtain ⟨hq, hev, hinv⟩ := hrd
      dsimp only at hq hev hinv
      dsimp only
      cases res with
      | error e => exact ⟨hq, hev, hinv⟩
      | ok v =>
        dsimp only
        cases hsys2 : lookupSystem a2 c.system with
        | none => exact (⟨hq, hev, hinv⟩ :
            GoodRes a ⟨.error (.lookupSystem c.system), a2, tr⟩)
        | some sys =>
          dsimp only
          cases hst2 : lookupState sys c.currentState with
          | none => exact (⟨hq, hev, hinv⟩ :
              GoodRes a ⟨.error (.lookupState c.system c.currentState), a2, tr⟩)
          | some st =>
            show GoodRes a ⟨.ok true, a2,
              tr ++
              (if st.hasOnTransition then
                [Eff.onTransition c.system c.currentState c.currentState c.cargo]
              else []) ++
              [Eff.updateContexts, Eff.updateContexts]⟩
            refine ⟨?_, hev, hinv⟩
            intro x hx
            rcases List.mem_append.mp hx with hx | hx
            · rcases List.mem_append.mp hx with hx | hx
              · exact hq x hx
              · by_cases hobs : st.hasOnTransition
                · rw [if_pos hobs] at hx
                  rcases List.mem_singleton.mp hx with rfl
                  rfl
                · rw [if_neg hobs] at hx
                  exact absurd hx (List.not_mem_nil x)
            · rcases List.mem_cons.mp hx with rfl | hx2
              · rfl
              · rcases List.mem_cons.mp hx2 with rfl | hx3
                · rfl
                · exact absurd hx3 (List.not_mem_nil x)
    · rw [if_neg h2]
      by_cases h3 : s = c.currentState
      · rw [if_pos h3]
        exact goodRes_same a _
      · rw [if_neg h3]
        by_cases h4 : s.data.head? = some '#'
        · rw [if_pos h4]
          dsimp only
          by_cases h5 : String.mk s.data.tail = "@current"
          · rw [if_pos h5]
            exact transitionPushChild_good a c c.system
          · rw [if_neg h5]
            split
            · exact goodRes_same a _
            · exact transitionPushChild_good a c (String.mk s.data.tail)
        · rw [if_neg h4]
          have hrd := removeDescendants_good a c
          rcases hrdeq : removeDescendants a c with ⟨res, a2, tr⟩
          rw [hrdeq] at hrd
          obtain ⟨hq, hev, hinv⟩ := hrd
          dsimp only at hq hev hinv
          dsimp only
          cases res with
          | error e => exact ⟨hq, hev, hinv⟩
          | ok v =>
            dsimp only
            cases hsys2 : lookupSystem a2 c.system with
            | none => exact (⟨hq, hev, hinv⟩ :
                GoodRes a ⟨.error (.lookupSystem c.system), a2, tr⟩)
            | some sys =>
              dsimp only
              cases hst2 : lookupState sys s with
              | none => exact (⟨hq, hev, hinv⟩ :
                  GoodRes a ⟨.error (.lookupState c.system s), a2, tr⟩)
              | some st =>
                show GoodRes a ⟨.ok true,
                  { a2 with contexts := a2.contexts.map (fun x =>
                    if x == c then { x with currentState := s } else x) },
                  tr ++
                  (if st.hasOnTransition then
                    [Eff.onTransition c.system s c.currentState c.cargo]
                  else []) ++
                  [Eff.updateContexts]⟩
                refine ⟨?_, hev, ?_⟩
                · intro x hx
                  rcases List.mem_append.mp hx with hx | hx
                  · rcases List.mem_append.mp hx with hx | hx
                    · exact hq x hx
                    · by_cases hobs : st.hasOnTransition
                      · rw [if_pos hobs] at hx
                        rcases List.mem_singleton.mp hx with rfl
                        rfl
                      · rw [if_neg hobs] at hx
                        exact absurd hx (List.not_mem_nil x)
                  · rcases List.mem_singleton.mp hx with rfl
                    rfl
                · intro ha
                  have hinv2 := hinv ha
                  intro x hx
                  dsimp only at hx
                  obtain ⟨y, hy, hxy⟩ := List.mem_map.mp hx
                  rw [← hxy]
                  by_cases hyc : (y == c) = true
                  · rw [if_pos hyc]
                    exact ⟨h1, h2, h4⟩
                  · rw [if_neg hyc]
                    exact hinv2 y hy

theorem dispatch_props (e : Event) (l : List Context) :
    ∀ a : Auto,
      lastOnly (dispatch e a l).trace ∧
      List.Sublist ((dispatch e a l).trace.filterMap offKey)
        (l.map (fun c => (c.system, c.currentState))) ∧
      (∀ s st x, Eff.offered s st x ∈ (dispatch e a l).trace → x = e) ∧
      (∃ t, (dispatch e a l).auto.events = a.events ++ t) ∧
      (Inv a → Inv (dispatch e a l).auto) := by
  induction l with
  | nil =>
    intro a
    refine ⟨lastOnly_nil, List.nil_sublist _, ?_, ⟨[], by simp [dispatch]⟩, fun h => h⟩
    intro s st x hx
    exact absurd hx (List.not_mem_nil _)
  | cons c rest ih =>
    intro a
    unfold dispatch
    cases hsys : lookupSystem a c.system with
    | none =>
      dsimp only
      refine ⟨lastOnly_nil, List.nil_sublist _, ?_, ⟨[], by simp⟩, fun h => h⟩
      intro s st x hx
      exact absurd hx (List.not_mem_nil _)
    | some sys =>
      dsimp only
      split
      · refine ⟨lastOnly_nil, List.nil_sublist _, ?_, ⟨[], by simp⟩, fun h => h⟩
        intro s st x hx
        exact absurd hx (List.not_mem_nil _)
      · -- filter skipped this context
        obtain ⟨L, S, O, E, I⟩ := ih a
        exact ⟨L, List.Sublist.cons _ S, O, E, I⟩
      · -- context is offered the event
        cases hst : lookupState sys c.currentState with
        | none =>
          dsimp only
          refine ⟨lastOnly_nil, List.nil_sublist _, ?_, ⟨[], by simp⟩, fun h => h⟩
          intro s st x hx
          exact absurd hx (List.not_mem_nil _)
        | some st =>
          dsimp only
          cases hh : st.handler e c.cargo with
          | error u =>
            dsimp only
            refine ⟨?_, ?_, ?_, ⟨[], by simp⟩, fun h => h⟩
            · exact lastOnly_of_not_mem _ (by simp)
            · exact List.Sublist.cons₂ _ (List.nil_sublist _)
            · intro s stn x hx
              have hx2 := List.mem_singleton.mp hx
              injection hx2 with _ _ h3
          | ok r =>
            cases r with
            | none =>
              obtain ⟨L, S, O, E, I⟩ := ih a
              rcases hrec : dispatch e a rest with ⟨rres, ra, rtr⟩
              rw [hrec] at L S O E I
              dsimp only at L S O E I
              dsimp only [EResult.addTrace]
              refine ⟨?_, ?_, ?_, E, I⟩
              · exact lastOnly_append _ _ (by simp) L
              · have hfm : List.filterMap offKey
                    ([Eff.offered c.system c.currentState e] ++ rtr) =
                    (c.system, c.currentState) :: List.filterMap offKey rtr := by
                  simp [offKey]
                rw [hfm]
                exact List.Sublist.cons₂ _ S
              · intro s stn x hx
                rcases List.mem_append.mp hx with hx | hx
                · have hx2 := List.mem_singleton.mp hx
                  injection hx2 with _ _ h3
                · exact O s stn x hx
            | some s2 =>
              dsimp only
              by_cases hs2 : s2 = ""
              · rw [if_pos hs2]
                obtain ⟨L, S, O, E, I⟩ := ih a
                rcases hrec : dispatch e a rest with ⟨rres, ra, rtr⟩
                rw [hrec] at L S O E I
                dsimp only at L S O E I
                dsimp only [EResult.addTrace]
                refine ⟨?_, ?_, ?_, E, I⟩
                · exact lastOnly_append _ _ (by simp) L
                · have hfm : List.filterMap offKey
                      ([Eff.offered c.system c.currentState e] ++ rtr) =
                      (c.system, c.currentState) :: List.filterMap offKey rtr := by
                    simp [offKey]
                  rw [hfm]
                  exact List.Sublist.cons₂ _ S
                · intro s stn x hx
                  rcases List.mem_append.mp hx with hx | hx
                  · have hx2 := List.mem_singleton.mp hx
                    injection hx2 with _ _ h3
                  · exact O s stn x hx
              · rw [if_neg hs2]
                have hgood := transitionTo_good a s2 c
                rcases htt : transitionTo a s2 c with ⟨ttres, ta, ttr⟩
                rw [htt] at hgood
                obtain ⟨ttq, ttev, ttinv⟩ := hgood
                dsimp only at ttq ttev ttinv
                dsimp only
                have hoffnot : Eff.latestTransition ∉
                    Eff.offered c.system c.currentState e :: ttr := by
                  intro hm
                  rcases List.mem_cons.mp hm with hm | hm
                  · exact Eff.noConfusion hm
                  · exact not_lt_of_quiet ttr ttq hm
                have hfmq : List.filterMap offKey ttr = [] := filterMap_quiet ttr ttq
                cases ttres with
                | error err =>
                  dsimp only
                  refine ⟨?_, ?_, ?_, ?_, ?_⟩
                  · exact lastOnly_of_not_mem _ hoffnot
                  · have hfm : List.filterMap offKey
                        (Eff.offered c.system c.currentState e :: ttr) =
                        [(c.system, c.currentState)] := by
                      simp [List.filterMap_cons, offKey, hfmq]
                    rw [hfm]
                    exact List.Sublist.cons₂ _ (List.nil_sublist _)
                  · intro s stn x hx
                    rcases List.mem_cons.mp hx with hx | hx
                    · injection hx with _ _ h3
                    · exact absurd hx (not_offered_of_quiet ttr ttq _ _ _)
                  · obtain ⟨t1, ht1⟩ := ttev
                    exact ⟨t1, ht1⟩
                  · exact ttinv
                | ok moved =>
                  cases moved with
                  | true =>
                    dsimp only
                    refine ⟨?_, ?_, ?_, ?_, ?_⟩
                    · have hassoc :
                          Eff.offered c.system c.currentState e ::
                            (ttr ++ [Eff.latestTransition]) =
                          (Eff.offered c.system c.currentState e :: ttr) ++
                            [Eff.latestTransition] := by
                        simp
                      rw [hassoc]
                      exact lastOnly_closing _ hoffnot
                    · have hfm : List.filterMap offKey
                          (Eff.offered c.system c.currentState e ::
                            (ttr ++ [Eff.latestTransition])) =
                          [(c.system, c.currentState)] := by
                        simp [List.filterMap_cons, List.filterMap_append, offKey, hfmq]
                      rw [hfm]
                      exact List.Sublist.cons₂ _ (List.nil_sublist _)
                    · intro s stn x hx
                      rcases List.mem_cons.mp hx with hx | hx
                      · injection hx with _ _ h3
                      · rcases List.mem_append.mp hx with hx | hx
                        · exact absurd hx (not_offered_of_quiet ttr ttq _ _ _)
                        · have hx2 := List.mem_singleton.mp hx
                          exact Eff.noConfusion hx2
                    · obtain ⟨t1, ht1⟩ := ttev
                      exact ⟨t1, ht1⟩
                    · exact ttinv
                  | false =>
                    obtain ⟨L, S, O, E, I⟩ := ih ta
                    rcases hrec : dispatch e ta rest with ⟨rres, ra, rtr⟩
                    rw [hrec] at L S O E I
                    dsimp only at L S O E I
                    dsimp only [EResult.addTrace]
                    refine ⟨?_, ?_, ?_, ?_, ?_⟩
                    · exact lastOnly_append _ _ hoffnot L
                    · have hfm : List.filterMap offKey
                          ((Eff.offered c.system c.currentState e :: ttr) ++ rtr) =
                          (c.system, c.currentState) :: List.filterMap offKey rtr := by
                        simp [List.filterMap_cons, List.filterMap_append, offKey, hfmq]
                      rw [hfm]
                      exact List.Sublist.cons₂ _ S
                    · intro s stn x hx
                      rcases List.mem_append.mp hx with hx | hx
                      · rcases List.mem_cons.mp hx with hx | hx
                        · injection hx with _ _ h3
                        · exact absurd hx (not_offered_of_quiet ttr ttq _ _ _)
                      · exact O s stn x hx
                    · obtain ⟨t1, ht1⟩ := ttev
                      obtain ⟨t2, ht2⟩ := E
                      exact ⟨t1 ++ t2, by rw [ht2, ht1, List.append_assoc]⟩
                    · intro hinv
                      exact I (ttinv hinv)

theorem doStep_cons_eq (a : Auto) (e : Event) (rest : List Event)
    (h : a.events = e :: rest) :
    (doStep a).trace = (dispatch e { a with events := rest } a.contexts).trace ∧
    (doStep a).auto = (dispatch e { a with events := rest } a.contexts).auto := by
  unfold doStep
  rw [h]
  dsimp only
  rcases hd : dispatch e { a with events := rest } a.contexts with ⟨res, da, dtr⟩
  cases res with
  | error err => exact ⟨rfl, rfl⟩
  | ok v => exact ⟨rfl, rfl⟩

/-!
Claim C2: each step applies at most one transition, offering the event in
stack order and stopping at the first applied transition.
-/

/-- C2: in every single `do()` step, contexts are offered the dequeued event
in stack order from the root (the `offered` effects, keyed by context, form
a sublist of the stack read root-to-leaf), and as soon as the transition
engine reports success — the `latestTransition` timestamp assignment — the
step ends: nothing at all, in particular no further offer, happens after it,
so at most one transition is applied per step. -/
theorem claim2_single_transition_per_step (a : Auto) :
    lastOnly (doStep a).trace ∧
    List.Sublist ((doStep a).trace.filterMap offKey)
      (a.contexts.map (fun c => (c.system, c.currentState))) := by
  cases hq : a.events with
  | nil =>
    have hds : doStep a = ⟨.ok (decide (0 < a.contexts.length)), a, []⟩ := by
      unfold doStep
      rw [hq]
    rw [hds]
    exact ⟨lastOnly_nil, List.nil_sublist _⟩
  | cons e rest =>
    obtain ⟨htr, _⟩ := doStep_cons_eq a e rest hq
    obtain ⟨L, S, _, _, _⟩ := dispatch_props e a.contexts { a with events := rest }
    rw [htr]
    exact ⟨L, S⟩

def w2 : Auto :=
  { systems := [("main", wMainSys), ("sub", wSubSys)],
    contexts := [⟨"main", "state1", 0⟩], events := [{}], nextCargo := 1 }

theorem claim2_single_transition_per_step_witness :
    (doStep w2).trace =
      [Eff.offered "main" "state1" {}, Eff.updateContexts, Eff.updateContexts] ++
        Eff.latestTransition :: [] ∧
    ([] : List Eff) = [] :=
  ⟨by decide, (claim2_single_transition_per_step w2).1
    [Eff.offered "main" "state1" {}, Eff.updateContexts, Eff.updateContexts] [] (by decide)⟩

/-!
Claim C8: the event queue is strictly FIFO.
-/

theorem pushEvent_foldl (a : Auto) (es : List (Option Event)) :
    (es.foldl pushEvent a).events = a.events ++ es.map (fun x => x.getD {}) := by
  induction es generalizing a with
  | nil => simp
  | cons x xs ih => simp [ih, pushEvent]

/-- C8: `pushEvent` appends each event at the tail (substituting the empty
record for a missing argument), one `do()` step consumes exactly the head
event — every handler offer in the step carries that head event, and the
queue afterwards is the former tail followed only by newly enqueued events —
so events are dispatched in exactly the order they were pushed. -/
theorem claim8_queue_fifo (a : Auto) (es : List (Option Event)) (e : Event)
    (rest : List Event) (h : a.events = e :: rest) :
    (es.foldl pushEvent a).events = a.events ++ es.map (fun x => x.getD {}) ∧
    (∀ s st x, Eff.offered s st x ∈ (doStep a).trace → x = e) ∧
    (∃ t, (doStep a).auto.events = rest ++ t) := by
  obtain ⟨htr, hauto⟩ := doStep_cons_eq a e rest h
  obtain ⟨_, _, O, E, _⟩ := dispatch_props e a.contexts { a with events := rest }
  refine ⟨pushEvent_foldl a es, ?_, ?_⟩
  · rw [htr]
    exact O
  · rw [hauto]
    obtain ⟨t, ht⟩ := E
    exact ⟨t, ht⟩

def w8 : Auto :=
  { systems := [("main", wMainSys)], contexts := [⟨"main", "idle", 0⟩],
    events := [{ name := some "first" }, { name := some "second" }], nextCargo := 1 }

theorem claim8_queue_fifo_witness :
    (([none, some { type := some "t" }] : List (Option Event)).foldl pushEvent w8).events =
      w8.events ++ [({} : Event), { type := some "t" }] ∧
    (∀ s st x, Eff.offered s st x ∈ (doStep w8).trace → x = { name := some "first" }) ∧
    (∃ t, (doStep w8).auto.events = [{ name := some "second" }] ++ t) :=
  claim8_queue_fifo w8 [none, some { type := some "t" }] { name := some "first" }
    [{ name := some "second" }] rfl

/-!
Claim C9: no context ever carries a reserved token as its `currentState`.
-/

/-- C9: the engine's operations preserve the invariant that every context's
`currentState` is never `@end`, never `@current`, and never starts with `#`:
it is always `@start` or an ordinary state name, because the reserved tokens
are intercepted before the branch that assigns `currentState`. -/
theorem claim9_reserved_tokens_invariant (a : Auto) (S s : String) (c : Context)
    (h : Inv a) :
    Inv (pushContext a S).auto ∧ Inv (transitionTo a s c).auto ∧
    Inv (doStep a).auto := by
  refine ⟨(pushContext_good a S).2.2 h, (transitionTo_good a s c).2.2 h, ?_⟩
  cases hq : a.events with
  | nil =>
    have hds : doStep a = ⟨.ok (decide (0 < a.contexts.length)), a, []⟩ := by
      unfold doStep
      rw [hq]
    rw [hds]
    exact h
  | cons e rest =>
    obtain ⟨_, hauto⟩ := doStep_cons_eq a e rest hq
    rw [hauto]
    exact (dispatch_props e a.contexts { a with events := rest }).2.2.2.2 h

theorem claim9_reserved_tokens_invariant_witness :
    Inv (pushContext w4 "main").auto ∧
    Inv (transitionTo w4 "start2" ⟨"main", "idle", 0⟩).auto ∧
    Inv (doStep w4).auto :=
  claim9_reserved_tokens_invariant w4 "main" "start2" ⟨"main", "idle", 0⟩ (by decide)

/-!
Claim C10: a `transition`-shaped event without a `data` field crashes the
step instead of being skipped or dispatched.
-/

/-- C10: when the stack is non-empty (and the head context's system is
registered, so the earlier `this.systems[system]` read succeeds) and the
dequeued event has `type == "automata"` and `name == "transition"` but no
`data` field, the per-context filter in `do()` dereferences
`event.data.systemName` without a guard, so the step fails with that error
rather than skipping or dispatching the event. -/
theorem claim10_missing_data_crash (a : Auto) (e : Event) (restE : List Event)
    (c : Context) (restC : List Context) (sys : List (String × StateDef))
    (hq : a.events = e :: restE) (hc : a.contexts = c :: restC)
    (ht : e.type = some "automata") (hn : e.name = some "transition")
    (hd : e.data = none)
    (hsys : lookupSystem a c.system = some sys) :
    (doStep a).res = .error .dataUndefined := by
  have hdis : ∀ b : Auto, lookupSystem b c.system = some sys →
      dispatch e b (c :: restC) = ⟨.error .dataUndefined, b, []⟩ := by
    intro b hb
    unfold dispatch
    rw [hb, ht, hn, hd]
    rfl
  unfold doStep
  rw [hq]
  dsimp only
  rw [hc, hdis { a with contexts := c :: restC, events := restE } hsys]

def w10 : Auto :=
  { systems := [("main", wMainSys)], contexts := [⟨"main", "idle", 0⟩],
    events := [{ type := some "automata", name := some "transition" }], nextCargo := 1 }

theorem claim10_missing_data_crash_witness :
    (doStep w10).res = .error .dataUndefined :=
  claim10_missing_data_crash w10 { type := some "automata", name := some "transition" }
    [] ⟨"main", "idle", 0⟩ [] wMainSys rfl rfl rfl rfl rfl rfl

end LayerableAutomata
